import Mathlib

/-!
Verification of the PATH-scanner core of this repository.

The scanner module provides: parsing of the PATH environment variable,
per-directory executable discovery, aggregation with deduplication,
classification of an installation path to an install method, synthesis of
uninstall instructions, and per-tool record assembly.  The definitions below
are a shallow embedding of these functions.  External collaborators that the
module imports from files outside the scanner (the process platform flag,
the path canonicalizer, the safe command runner, the fast which/where lookup
and the version-string parser) are either passed to the embedded functions
as explicit arguments or, where a claim depends on their behaviour, modelled
from the specification as noted in doc comments.
-/

namespace DevJanitor

/-- ASCII lower-casing of one character, the model of the effect of the
JavaScript toLowerCase on the ASCII characters appearing in paths. -/
def lowerChar (c : Char) : Char :=
  match c with
  | 'A' => 'a'
  | 'B' => 'b'
  | 'C' => 'c'
  | 'D' => 'd'
  | 'E' => 'e'
  | 'F' => 'f'
  | 'G' => 'g'
  | 'H' => 'h'
  | 'I' => 'i'
  | 'J' => 'j'
  | 'K' => 'k'
  | 'L' => 'l'
  | 'M' => 'm'
  | 'N' => 'n'
  | 'O' => 'o'
  | 'P' => 'p'
  | 'Q' => 'q'
  | 'R' => 'r'
  | 'S' => 's'
  | 'T' => 't'
  | 'U' => 'u'
  | 'V' => 'v'
  | 'W' => 'w'
  | 'X' => 'x'
  | 'Y' => 'y'
  | 'Z' => 'z'
  | c => c

/-- The uppercase ASCII letters, the characters lowerChar rewrites. -/
def upperChars : List Char :=
  ['A', 'B', 'C', 'D', 'E', 'F', 'G', 'H', 'I', 'J', 'K', 'L', 'M',
   'N', 'O', 'P', 'Q', 'R', 'S', 'T', 'U', 'V', 'W', 'X', 'Y', 'Z']

/-- Model of the JavaScript string toLowerCase, applied character-wise. -/
def lowerStr (s : String) : String :=
  ⟨s.data.map lowerChar⟩

/-- Whether the first list is a leading segment of the second. -/
def isPre : List Char → List Char → Bool
  | [], _ => true
  | _ :: _, [] => false
  | p :: ps, c :: cs => p == c && isPre ps cs

/-- Whether the pattern occurs as a contiguous segment of the list. -/
def hasInfixAux (pat : List Char) : List Char → Bool
  | [] => pat.isEmpty
  | c :: cs => isPre pat (c :: cs) || hasInfixAux pat cs

/-- Model of the JavaScript String.includes test. -/
def containsSubstr (s pat : String) : Bool :=
  hasInfixAux pat.data s.data

/-- Embedding of identifyInstallMethod from the scanner module.  The
platform string stands for the value of the process platform read by the
apt rule; the result is one of the six install-method tags. -/
def identifyInstallMethod (platform : String) (toolPath : String) : String :=
  if toolPath = "" then "manual"
  else
    let lowerPath := lowerStr toolPath
    if containsSubstr lowerPath "/opt/homebrew" ||
       containsSubstr lowerPath "/usr/local/cellar" ||
       containsSubstr lowerPath "homebrew" then "homebrew"
    else if containsSubstr lowerPath "chocolatey" ||
            containsSubstr lowerPath "choco" then "chocolatey"
    else if containsSubstr lowerPath "/usr/bin" && platform == "linux" then "apt"
    else if containsSubstr lowerPath "node_modules" ||
            containsSubstr lowerPath "npm" then "npm"
    else if containsSubstr lowerPath "site-packages" ||
            containsSubstr lowerPath "pip" ||
            containsSubstr lowerPath "python" then "pip"
    else "manual"

/-- Case-insensitive containment test, the reading used by the claim about
the provenance classifier. -/
def containsCI (p pat : String) : Bool :=
  containsSubstr (lowerStr p) pat

/-- The ordered first-match heuristic exactly as the claim about the
provenance classifier words it; to be compared with the embedded
identifyInstallMethod. -/
def identifyInstallMethodClaim (platform : String) (p : String) : String :=
  if p = "" then "manual"
  else if containsCI p "/opt/homebrew" ||
          containsCI p "/usr/local/cellar" ||
          containsCI p "homebrew" then "homebrew"
  else if containsCI p "chocolatey" || containsCI p "choco" then "chocolatey"
  else if containsCI p "/usr/bin" && platform == "linux" then "apt"
  else if containsCI p "node_modules" || containsCI p "npm" then "npm"
  else if containsCI p "site-packages" ||
          containsCI p "pip" ||
          containsCI p "python" then "pip"
  else "manual"

/-- Whitespace test of the trim model. -/
def isWsChar (c : Char) : Bool :=
  c == ' ' || c == '\t' || c == '\n' || c == '\r'

/-- Model of the JavaScript string trim: drop whitespace characters from
both ends. -/
def trimStr (s : String) : String :=
  ⟨((s.data.dropWhile isWsChar).reverse.dropWhile isWsChar).reverse⟩

/-- Embedding of generateUninstallInstructions from the scanner module.
The install method is carried as its literal string tag, so that the
default branch of the source switch (shared with the manual case) is
reached by any unrecognized value, exactly as in the source.  The isWin
flag stands for the imported isWindows collaborator. -/
def generateUninstallInstructions (isWin : Bool) (toolName : String)
    (installMethod : String) (toolPath : String) : List String :=
  if installMethod == "homebrew" then
    ["brew uninstall " ++ toolName,
     "# Or force uninstall: brew uninstall --force " ++ toolName]
  else if installMethod == "chocolatey" then
    ["choco uninstall " ++ toolName,
     "# Or force uninstall: choco uninstall " ++ toolName ++ " --force"]
  else if installMethod == "apt" then
    ["sudo apt remove " ++ toolName,
     "# Or purge (remove config): sudo apt purge " ++ toolName]
  else if installMethod == "npm" then
    ["npm uninstall -g " ++ toolName]
  else if installMethod == "pip" then
    ["pip uninstall " ++ toolName,
     "# Or: pip3 uninstall " ++ toolName]
  else
    if !(toolPath == "") then
      if isWin then
        ["# Manual removal required",
         "# Delete file: " ++ toolPath,
         "# Or check Programs and Features in Control Panel"]
      else
        ["# Manual removal required",
         "sudo rm " ++ toolPath,
         "# Or check if installed via system package manager"]
    else
      ["# Unable to determine uninstall method",
       "# Please check your system's package manager"]

/-- Embedding of getVersionOutput from the scanner module: prefer a stdout
with visible content, else a stderr with visible content, else the empty
string.  The two optional fields model the optional stdout and stderr of
the safe command runner result. -/
def getVersionOutput (stdout stderr : Option String) : String :=
  match stdout with
  | some s =>
    if !(trimStr s == "") then s
    else
      match stderr with
      | some t => if !(trimStr t == "") then t else ""
      | none => ""
  | none =>
    match stderr with
    | some t => if !(trimStr t == "") then t else ""
    | none => ""

/-- Result of the safe command runner collaborator. -/
structure ExecResult where
  success : Bool
  stdout : Option String
  stderr : Option String
deriving DecidableEq

/-- The aggregate per-tool record returned by the assembler. -/
structure ExtendedToolInfo where
  name : String
  displayName : String
  version : Option String
  path : Option String
  isInstalled : Bool
  installMethod : String
  category : String
  allPaths : List String
  uninstallInstructions : List String
deriving DecidableEq

/-- Embedding of getExtendedToolInfo from the scanner module.  The results
of the two external collaborators it awaits (getAllToolPaths and the safe
runner of the version probe) are passed in as values, and the external
version parser as a function, so the embedding is the pure rest of the
assembler. -/
def getExtendedToolInfo (isWin : Bool) (platform : String)
    (parseVersion : String → Option String) (toolName : String)
    (allPaths : List String) (versionResult : ExecResult) : ExtendedToolInfo :=
  let version := parseVersion (getVersionOutput versionResult.stdout versionResult.stderr)
  let primaryPath : Option String := allPaths.head?
  let installMethod := identifyInstallMethod platform (primaryPath.getD "")
  let uninstallInstructions :=
    generateUninstallInstructions isWin toolName installMethod (primaryPath.getD "")
  { name := toolName
    displayName := toolName
    version := version
    path := primaryPath
    isInstalled := decide (0 < allPaths.length) && versionResult.success
    installMethod := installMethod
    category := "tool"
    allPaths := allPaths
    uninstallInstructions := uninstallInstructions }

/-- The stat information the scanner consults: whether the entry is a
regular file and its permission mode bits. -/
structure Stats where
  isFile : Bool
  mode : Nat
deriving DecidableEq

/-- Finite model of the filesystem state the scanner reads: stat results
per path (absence meaning the stat call fails), the set of directories the
access probe accepts, and directory listings per path (absence meaning the
listing call fails). -/
structure FileSystem where
  stats : List (String × Stats)
  accessOk : List String
  dirs : List (String × List String)
deriving DecidableEq

/-- Stat a path; a missing entry models a thrown filesystem error. -/
def FileSystem.statOf (fs : FileSystem) (p : String) : Option Stats :=
  fs.stats.lookup p

/-- Whether the access probe of a path succeeds. -/
def FileSystem.accessOf (fs : FileSystem) (p : String) : Bool :=
  fs.accessOk.contains p

/-- List a directory; a missing entry models a thrown filesystem error. -/
def FileSystem.readdirOf (fs : FileSystem) (p : String) : Option (List String) :=
  fs.dirs.lookup p

/-- Whether a character is a path separator on the given platform. -/
def isSep (isWin : Bool) (c : Char) : Bool :=
  c == '/' || (isWin && c == '\\')

/-- The separator character the joiner inserts on the given platform. -/
def sepChar (isWin : Bool) : Char :=
  if isWin then '\\' else '/'

/-- Model of the path join used by the scanner for one directory and one
listed entry: if the directory already ends in a separator the entry is
appended directly, otherwise the platform separator is inserted. -/
def pathJoinData (isWin : Bool) (d f : List Char) : List Char :=
  match d.reverse with
  | [] => f
  | c :: rest =>
    if isSep isWin c then rest.reverse ++ c :: f
    else d ++ sepChar isWin :: f

/-- String form of the path join model. -/
def pathJoin (isWin : Bool) (dir file : String) : String :=
  ⟨pathJoinData isWin dir.data file.data⟩

/-- Separator unification used by the canonicalizer model. -/
def unifySepChar (c : Char) : Char :=
  if c == '\\' then '/' else c

/-- Modelled from the spec: the normalizePath collaborator, whose source is
outside the scanner module, performs platform path canonicalization and in
particular unifies separator characters; on the Windows platform the model
rewrites backslashes to slashes and elsewhere it leaves the path as given. -/
def normalizePathModel (isWin : Bool) (p : String) : String :=
  if isWin then ⟨p.data.map unifySepChar⟩ else p

/-- The segment of the last dot onward, searching from the right. -/
def lastDotSuffix : List Char → Option (List Char)
  | [] => none
  | c :: cs =>
    match lastDotSuffix cs with
    | some e => some e
    | none => if c == '.' then some (c :: cs) else none

/-- The characters after the last separator of a path. -/
def basenameData (isWin : Bool) (p : List Char) : List Char :=
  p.foldl (fun acc c => if isSep isWin c then [] else acc ++ [c]) []

/-- Model of the extension extraction used by the scanner: the segment of
the base name from its last dot, except that a dot opening the base name
does not start an extension and the two-dot name has none. -/
def extnameData (isWin : Bool) (p : List Char) : List Char :=
  match basenameData isWin p with
  | [] => []
  | c :: rest =>
    if c :: rest == ['.', '.'] then []
    else
      match lastDotSuffix rest with
      | some e => e
      | none => []

/-- String form of the extension extraction model. -/
def extname (isWin : Bool) (p : String) : String :=
  ⟨extnameData isWin p.data⟩

/-- The extension allow-list of the Windows executability policy. -/
def winExecExts : List String :=
  [".exe", ".cmd", ".bat", ".com", ".ps1"]

/-- Embedding of isExecutable from the scanner module: a failed stat and a
non-file both give false; a regular file is tested by the platform policy,
the extension allow-list on Windows and the three execute permission bits
elsewhere. -/
def isExecutable (isWin : Bool) (fs : FileSystem) (filePath : String) : Bool :=
  match fs.statOf filePath with
  | none => false
  | some st =>
    if !st.isFile then false
    else if isWin then
      winExecExts.contains (lowerStr (extname true filePath))
    else
      ((st.mode &&& 64) != 0) || ((st.mode &&& 8) != 0) || ((st.mode &&& 1) != 0)

/-- One discovered executable: lower-cased name, normalized path and the
normalized directory it was found in. -/
structure ExecutableInfo where
  name : String
  path : String
  directory : String
deriving DecidableEq

/-- Whether the first list is a trailing segment of the second. -/
def isSuffixB (ext f : List Char) : Bool :=
  isPre ext.reverse f.reverse

/-- Model of the base-name extraction with a known extension argument, as
the scanner uses it on a listed entry: the extension is removed when the
entry really ends with it (the comparison is case-sensitive, so a
lower-cased extension only strips an entry that is lower-case there). -/
def basenameStripExt (file ext : String) : String :=
  if isSuffixB ext.data file.data then
    ⟨file.data.take (file.data.length - ext.data.length)⟩
  else file

/-- Embedding of scanDirectory from the scanner module: a failed access
probe or a failed listing gives the empty list; otherwise every listed
entry is kept when executable, with the name derived from the entry (the
recognized extension stripped on Windows) and lower-cased, in listing
order. -/
def scanDirectory (isWin : Bool) (fs : FileSystem) (directory : String) :
    List ExecutableInfo :=
  if !(fs.accessOf directory) then []
  else
    match fs.readdirOf directory with
    | none => []
    | some files =>
      files.filterMap (fun file =>
        let filePath := pathJoin isWin directory file
        if isExecutable isWin fs filePath then
          let name :=
            if isWin then
              let ext := lowerStr (extname true file)
              if winExecExts.contains ext then basenameStripExt file ext else file
            else file
          some { name := lowerStr name
                 path := normalizePathModel isWin filePath
                 directory := normalizePathModel isWin directory }
        else none)

/-- The value of the search-path variable: the first of the two casings of
the variable that is present and non-empty, else the empty string. -/
def envOr (o : Option String) (dflt : String) : String :=
  match o with
  | some s => if s == "" then dflt else s
  | none => dflt

/-- Combined search-path environment value with the casing fallback. -/
def pathEnvValue (envPATH envPath : Option String) : String :=
  envOr envPATH (envOr envPath "")

/-- The search-path separator of the platform. -/
def pathSeparator (isWin : Bool) : Char :=
  if isWin then ';' else ':'

/-- Splitting on a separator character, keeping empty segments, as the
JavaScript string split does. -/
def splitCharAux (sep : Char) : List Char → List Char → List (List Char)
  | [], acc => [acc.reverse]
  | c :: cs, acc =>
    if c == sep then acc.reverse :: splitCharAux sep cs []
    else splitCharAux sep cs (c :: acc)

/-- String form of the separator split. -/
def splitOnChar (sep : Char) (s : String) : List String :=
  (splitCharAux sep s.data []).map (fun l => ⟨l⟩)

/-- Embedding of parsePath from the scanner module: split the search-path
value on the platform separator, trim every segment, drop the segments
that become empty and normalize the remaining ones, preserving order. -/
def parsePath (isWin : Bool) (envPATH envPath : Option String) : List String :=
  (((splitOnChar (pathSeparator isWin) (pathEnvValue envPATH envPath)).map
      trimStr).filter (fun p => !(p == ""))).map (normalizePathModel isWin)

/-- The composite dedup key of one discovered executable. -/
def execKey (e : ExecutableInfo) : String :=
  e.name ++ ":" ++ e.path

/-- The dedup accumulation of the aggregator: walk the merged records in
order, keep a record whose key is unseen and remember its key. -/
def dedupLoop (seen : List String) : List ExecutableInfo → List ExecutableInfo
  | [] => []
  | e :: es =>
    if execKey e ∈ seen then dedupLoop seen es
    else e :: dedupLoop (execKey e :: seen) es

/-- The concatenation, in search-path order, of the per-directory scans. -/
def allScans (isWin : Bool) (fs : FileSystem) (envPATH envPath : Option String) :
    List ExecutableInfo :=
  ((parsePath isWin envPATH envPath).map (scanDirectory isWin fs)).flatten

/-- Embedding of scanAllPathDirectories from the scanner module: the
per-directory scans merged in search-path order and deduplicated by the
composite key, first occurrence winning. -/
def scanAllPathDirectories (isWin : Bool) (fs : FileSystem)
    (envPATH envPath : Option String) : List ExecutableInfo :=
  dedupLoop [] (allScans isWin fs envPATH envPath)

/-- Well-formedness of a filesystem state as an operating system delivers
it: a listed entry never contains the slash separator, and on Windows never
contains a backslash or a colon, characters its filenames cannot hold. -/
def WFfs (isWin : Bool) (fs : FileSystem) : Prop :=
  ∀ entry ∈ fs.dirs, ∀ file ∈ entry.2,
    ('/' : Char) ∉ file.data ∧
    (isWin = true → ('\\' : Char) ∉ file.data ∧ (':' : Char) ∉ file.data)

/-- Shape of every record a directory scan can produce: its path splits at
a final separator before the entry characters, and its name is colon-free
on Windows and exactly as long as the entry elsewhere. -/
def GoodRecord (isWin : Bool) (e : ExecutableInfo) : Prop :=
  ∃ D f, e.path.data = D ++ '/' :: f ∧ ('/' : Char) ∉ f ∧
    (isWin = true → (':' : Char) ∉ e.name.data) ∧
    (isWin = false → e.name.data.length = f.length)

/-- A small concrete filesystem used by witnesses: one directory holding
one executable file and one file without execute permission. -/
def sampleFS : FileSystem :=
  { stats := [("/bin/x", { isFile := true, mode := 73 }),
              ("/bin/y", { isFile := true, mode := 0 })]
    accessOk := ["/bin"]
    dirs := [("/bin", ["x", "y"])] }

/-- The filesystem with no reachable entries, used by failure witnesses. -/
def emptyFS : FileSystem :=
  { stats := [], accessOk := [], dirs := [] }

instance (isWin : Bool) (fs : FileSystem) : Decidable (WFfs isWin fs) := by
  unfold WFfs; infer_instance

theorem lowerChar_eq_self {c : Char} (h : c ∉ upperChars) : lowerChar c = c := by
  unfold lowerChar
  split <;> first | rfl | exact absurd (by decide) h

theorem lowerChar_lowerChar (c : Char) : lowerChar (lowerChar c) = lowerChar c := by
  by_cases hc : c ∈ upperChars
  · fin_cases hc <;> decide
  · rw [lowerChar_eq_self hc, lowerChar_eq_self hc]

theorem lowerChar_eq_colon {c : Char} (h : lowerChar c = ':') : c = ':' := by
  by_cases hc : c ∈ upperChars
  · fin_cases hc <;> exact absurd h (by decide)
  · rwa [lowerChar_eq_self hc] at h

theorem lowerStr_lowerStr (s : String) : lowerStr (lowerStr s) = lowerStr s := by
  unfold lowerStr
  simp [List.map_map, Function.comp_def, lowerChar_lowerChar]

theorem lowerStr_eq_empty {s : String} : lowerStr s = "" ↔ s = "" := by
  constructor
  · intro h
    have hd : s.data.map lowerChar = [] := congrArg String.data h
    have hdata : s.data = [] := by
      cases hmap : s.data with
      | nil => rfl
      | cons a t =>
        rw [hmap] at hd
        exact (List.cons_ne_nil _ _ hd).elim
    cases s with
    | mk d =>
      cases hdata
      rfl
  · intro h
    subst h
    rfl

/-- Claim C1: identifyInstallMethod realizes exactly the ordered
first-match heuristic of the specification, with the empty path giving
manual and the apt rule gated on the Linux platform; in particular the
path /usr/bin/foo classifies as apt on Linux and as manual on every other
platform, and the earliest matching rule decides. -/
theorem identifyInstallMethod_matches_claim (platform p : String) :
    identifyInstallMethod platform p = identifyInstallMethodClaim platform p ∧
    identifyInstallMethod "linux" "/usr/bin/foo" = "apt" ∧
    (platform ≠ "linux" → identifyInstallMethod platform "/usr/bin/foo" = "manual") := by
  refine ⟨rfl, by decide, fun h => ?_⟩
  have hb : (platform == "linux") = false := beq_eq_false_iff_ne.mpr h
  have h1 : containsSubstr (lowerStr "/usr/bin/foo") "/opt/homebrew" = false := by decide
  have h2 : containsSubstr (lowerStr "/usr/bin/foo") "/usr/local/cellar" = false := by decide
  have h3 : containsSubstr (lowerStr "/usr/bin/foo") "homebrew" = false := by decide
  have h4 : containsSubstr (lowerStr "/usr/bin/foo") "chocolatey" = false := by decide
  have h5 : containsSubstr (lowerStr "/usr/bin/foo") "choco" = false := by decide
  have h6 : containsSubstr (lowerStr "/usr/bin/foo") "node_modules" = false := by decide
  have h7 : containsSubstr (lowerStr "/usr/bin/foo") "npm" = false := by decide
  have h8 : containsSubstr (lowerStr "/usr/bin/foo") "site-packages" = false := by decide
  have h9 : containsSubstr (lowerStr "/usr/bin/foo") "pip" = false := by decide
  have h10 : containsSubstr (lowerStr "/usr/bin/foo") "python" = false := by decide
  simp [identifyInstallMethod, hb, h1, h2, h3, h4, h5, h6, h7, h8, h9, h10]

theorem identifyInstallMethod_matches_claim_witness :
    identifyInstallMethod "darwin" "/opt/homebrew/bin/foo" =
      identifyInstallMethodClaim "darwin" "/opt/homebrew/bin/foo" ∧
    identifyInstallMethod "linux" "/usr/bin/foo" = "apt" ∧
    identifyInstallMethod "darwin" "/usr/bin/foo" = "manual" :=
  ⟨(identifyInstallMethod_matches_claim "darwin" "/opt/homebrew/bin/foo").1,
   (identifyInstallMethod_matches_claim "darwin" "/opt/homebrew/bin/foo").2.1,
   (identifyInstallMethod_matches_claim "darwin" "x").2.2 (by decide)⟩

/-- Claim C10: with the platform fixed, identifyInstallMethod is invariant
under lower-casing its path argument, because the path is lower-cased once
before any rule is tested. -/
theorem identifyInstallMethod_lower_invariant (platform p : String) :
    identifyInstallMethod platform p = identifyInstallMethod platform (lowerStr p) := by
  by_cases hp : p = ""
  · subst hp; rfl
  · have hlp : ¬(lowerStr p = "") := fun h => hp (lowerStr_eq_empty.mp h)
    simp only [identifyInstallMethod, hp, hlp, if_false, lowerStr_lowerStr]

/-- Claim C2: the assembled record reports isInstalled exactly when the
fast lookup returned at least one path and the version probe process
succeeded. -/
theorem getExtendedToolInfo_isInstalled_iff (isWin : Bool) (platform : String)
    (pv : String → Option String) (toolName : String) (allPaths : List String)
    (res : ExecResult) :
    (getExtendedToolInfo isWin platform pv toolName allPaths res).isInstalled = true ↔
      (allPaths ≠ [] ∧ res.success = true) := by
  simp [getExtendedToolInfo, List.length_pos]

/-- Claim C5 counterexample: when the fast lookup hands back the same path
twice, the assembled record's allPaths keeps the duplicate, so the field is
not duplicate-free for every possible collaborator result. -/
theorem getExtendedToolInfo_allPaths_duplicate :
    ¬ (getExtendedToolInfo false "linux" (fun _ => none) "tool" ["/a", "/a"]
        { success := true, stdout := none, stderr := none }).allPaths.Nodup := by
  decide

/-- Claim C5 amended: the assembled record's allPaths is the fast lookup's
result verbatim, so it is duplicate-free exactly when that result is. -/
theorem getExtendedToolInfo_allPaths_verbatim (isWin : Bool) (platform : String)
    (pv : String → Option String) (toolName : String) (allPaths : List String)
    (res : ExecResult) :
    (getExtendedToolInfo isWin platform pv toolName allPaths res).allPaths = allPaths ∧
    ((getExtendedToolInfo isWin platform pv toolName allPaths res).allPaths.Nodup ↔
      allPaths.Nodup) :=
  ⟨rfl, Iff.rfl⟩

/-- Claim C8 counterexample: a whitespace-only stdout is a non-empty
string, yet the probe text handed on is the stderr, not that stdout. -/
theorem getVersionOutput_whitespace_counterexample :
    (" " : String) ≠ "" ∧ getVersionOutput (some " ") (some "v1.0.0") = "v1.0.0" ∧
    ("v1.0.0" : String) ≠ " " := by
  refine ⟨by decide, by decide, by decide⟩

/-- Claim C8 amended: the probe text is the stdout string whenever stdout
has a non-whitespace character, else the stderr string whenever stderr has
a non-whitespace character, else the empty string. -/
theorem getVersionOutput_prefers_visible_stdout (stdout stderr : Option String) :
    (∀ s, stdout = some s → trimStr s ≠ "" → getVersionOutput stdout stderr = s) ∧
    ((∀ s, stdout = some s → trimStr s = "") →
      ∀ t, stderr = some t → trimStr t ≠ "" → getVersionOutput stdout stderr = t) ∧
    ((∀ s, stdout = some s → trimStr s = "") →
      (∀ t, stderr = some t → trimStr t = "") → getVersionOutput stdout stderr = "") := by
  refine ⟨?_, ?_, ?_⟩
  · intro s hs hne
    cases stdout with
    | none => cases hs
    | some u =>
      cases hs
      simp [getVersionOutput, hne]
  · intro hso t ht htne
    cases stderr with
    | none => cases ht
    | some v =>
      cases ht
      cases stdout with
      | none => simp [getVersionOutput, htne]
      | some u => simp [getVersionOutput, hso u rfl, htne]
  · intro hso hse
    cases stdout with
    | none =>
      cases stderr with
      | none => rfl
      | some v => simp [getVersionOutput, hse v rfl]
    | some u =>
      cases stderr with
      | none => simp [getVersionOutput, hso u rfl]
      | some v => simp [getVersionOutput, hso u rfl, hse v rfl]

theorem getVersionOutput_prefers_visible_stdout_witness :
    getVersionOutput (some "v1") none = "v1" :=
  (getVersionOutput_prefers_visible_stdout (some "v1") none).1 "v1" rfl (by decide)

/-- Claim C9: the uninstall instruction synthesizer never returns an empty
list, for every tool name, method tag (an unrecognized tag falling to the
shared manual and default branch) and path, including the manual method
with an empty path. -/
theorem generateUninstallInstructions_nonempty (isWin : Bool)
    (toolName method toolPath : String) :
    generateUninstallInstructions isWin toolName method toolPath ≠ [] ∧
    (method ≠ "homebrew" → method ≠ "chocolatey" → method ≠ "apt" →
      method ≠ "npm" → method ≠ "pip" →
      generateUninstallInstructions isWin toolName method toolPath =
        generateUninstallInstructions isWin toolName "manual" toolPath) := by
  constructor
  · unfold generateUninstallInstructions
    repeat' split
    all_goals simp
  · intro h1 h2 h3 h4 h5
    have b1 : (method == "homebrew") = false := beq_eq_false_iff_ne.mpr h1
    have b2 : (method == "chocolatey") = false := beq_eq_false_iff_ne.mpr h2
    have b3 : (method == "apt") = false := beq_eq_false_iff_ne.mpr h3
    have b4 : (method == "npm") = false := beq_eq_false_iff_ne.mpr h4
    have b5 : (method == "pip") = false := beq_eq_false_iff_ne.mpr h5
    simp [generateUninstallInstructions, b1, b2, b3, b4, b5]

theorem generateUninstallInstructions_nonempty_witness :
    generateUninstallInstructions true "x" "garbage" "" ≠ [] ∧
    generateUninstallInstructions true "x" "garbage" "" =
      generateUninstallInstructions true "x" "manual" "" :=
  ⟨(generateUninstallInstructions_nonempty true "x" "garbage" "").1,
   (generateUninstallInstructions_nonempty true "x" "garbage" "").2
     (by decide) (by decide) (by decide) (by decide) (by decide)⟩

theorem trim_filter_norm (w : Bool) (l : List String) :
    ((l.map trimStr).filter (fun p => !(p == ""))).map (normalizePathModel w) =
      l.filterMap (fun s =>
        if trimStr s = "" then none else some (normalizePathModel w (trimStr s))) := by
  induction l with
  | nil => rfl
  | cons a t ih =>
    by_cases h : trimStr a = ""
    · simp [h, ih]
    · have hb : (trimStr a == "") = false := beq_eq_false_iff_ne.mpr h
      simp [h, hb, ih]

/-- Claim C6: parsePath never fails; an absent or empty search-path value
yields the empty sequence, and otherwise the value is split on the platform
separator, each segment trimmed, the segments that become empty discarded
and the remaining ones normalized, in their original order. -/
theorem parsePath_spec (isWin : Bool) (envPATH envPath : Option String) :
    (pathEnvValue envPATH envPath = "" → parsePath isWin envPATH envPath = []) ∧
    parsePath isWin none none = [] ∧
    parsePath isWin (some "") (some "") = [] ∧
    parsePath isWin envPATH envPath =
      (splitOnChar (pathSeparator isWin) (pathEnvValue envPATH envPath)).filterMap
        (fun s =>
          if trimStr s = "" then none
          else some (normalizePathModel isWin (trimStr s))) := by
  refine ⟨?_, rfl, rfl, ?_⟩
  · intro h
    unfold parsePath
    rw [h]
    rfl
  · exact trim_filter_norm isWin _

theorem parsePath_spec_witness :
    parsePath false (some "") (some "") = [] ∧
    parsePath false (some " /usr/bin : :/opt/x ") none =
      (splitOnChar (pathSeparator false) (pathEnvValue (some " /usr/bin : :/opt/x ") none)).filterMap
        (fun s =>
          if trimStr s = "" then none
          else some (normalizePathModel false (trimStr s))) :=
  ⟨(parsePath_spec false (some "") (some "")).1 rfl,
   (parsePath_spec false (some " /usr/bin : :/opt/x ") none).2.2.2⟩

theorem land_two_pow_ne_zero_iff (n k : Nat) :
    ((n &&& 2 ^ k) ≠ 0) ↔ n.testBit k = true := by
  rw [Nat.and_two_pow]
  cases h : n.testBit k
  · simp
  · simp [(Nat.two_pow_pos k).ne']

/-- Claim C4: isExecutable returns false whenever the stat fails or the
entry is not a regular file; for a regular file it is true on the Windows
policy exactly when the lower-cased extension is on the allow-list, and on
the POSIX policy exactly when one of the owner, group or other execute
bits of the mode is set; in particular a tool.txt name is never executable
under the Windows policy and a mode with no execute bit never under the
POSIX policy. -/
theorem isExecutable_policy (fs : FileSystem) (p : String) :
    (∀ w, fs.statOf p = none → isExecutable w fs p = false) ∧
    (∀ w st, fs.statOf p = some st → st.isFile = false → isExecutable w fs p = false) ∧
    (∀ st, fs.statOf p = some st → st.isFile = true →
      (isExecutable true fs p = true ↔ lowerStr (extname true p) ∈ winExecExts)) ∧
    (∀ st, fs.statOf p = some st → st.isFile = true →
      (isExecutable false fs p = true ↔
        (st.mode.testBit 6 = true ∨ st.mode.testBit 3 = true ∨ st.mode.testBit 0 = true))) ∧
    isExecutable true fs "/dir/tool.txt" = false ∧
    (∀ st, fs.statOf p = some st → st.isFile = true → st.mode.testBit 6 = false →
      st.mode.testBit 3 = false → st.mode.testBit 0 = false →
      isExecutable false fs p = false) := by
  have h6 := land_two_pow_ne_zero_iff
  refine ⟨?_, ?_, ?_, ?_, ?_, ?_⟩
  · intro w h
    simp [isExecutable, h]
  · intro w st h hf
    simp [isExecutable, h, hf]
  · intro st h hf
    simp [isExecutable, h, hf]
  · intro st h hf
    have e6 := land_two_pow_ne_zero_iff st.mode 6
    have e3 := land_two_pow_ne_zero_iff st.mode 3
    norm_num at e6 e3
    simp [isExecutable, h, hf, bne_iff_ne, e6, e3, or_assoc]
  · cases h : fs.statOf "/dir/tool.txt" with
    | none => simp [isExecutable, h]
    | some st =>
      cases hf : st.isFile with
      | false => simp [isExecutable, h, hf]
      | true =>
        simp [isExecutable, h, hf]
        decide
  · intro st h hf b6 b3 b0
    have e6 := land_two_pow_ne_zero_iff st.mode 6
    have e3 := land_two_pow_ne_zero_iff st.mode 3
    norm_num at e6 e3
    have z6 : st.mode &&& 64 = 0 := by
      by_contra hne
      exact absurd (e6.mp hne) (by simp [b6])
    have z3 : st.mode &&& 8 = 0 := by
      by_contra hne
      exact absurd (e3.mp hne) (by simp [b3])
    have hb0 : st.mode % 2 ≠ 1 := by simpa using b0
    have z0 : st.mode &&& 1 = 0 := by
      rw [Nat.and_one_is_mod]
      omega
    simp [isExecutable, h, hf, z6, z3, z0]

theorem isExecutable_policy_witness :
    isExecutable false sampleFS "/bin/x" = true ∧
    isExecutable false sampleFS "/bin/y" = false ∧
    isExecutable true sampleFS "/dir/tool.txt" = false :=
  ⟨((isExecutable_policy sampleFS "/bin/x").2.2.2.1 { isFile := true, mode := 73 }
      (by decide) rfl).mpr (Or.inl (by decide)),
   (isExecutable_policy sampleFS "/bin/y").2.2.2.2.2 { isFile := true, mode := 0 }
      (by decide) rfl (by decide) (by decide) (by decide),
   (isExecutable_policy sampleFS "/bin/x").2.2.2.2.1⟩

/-- Claim C7: scanDirectory returns normally with the empty list when the
access probe of the directory fails or its listing fails, and a directory
whose scan came out empty contributes nothing to the aggregate, so the
remaining search-path directories are scanned as if it were absent. -/
theorem scanDirectory_failure_isolated (isWin : Bool) (fs : FileSystem) (d : String) :
    (fs.accessOf d = false → scanDirectory isWin fs d = []) ∧
    (fs.readdirOf d = none → scanDirectory isWin fs d = []) ∧
    (∀ dirs₁ dirs₂ : List String, scanDirectory isWin fs d = [] →
      dedupLoop [] (((dirs₁ ++ d :: dirs₂).map (scanDirectory isWin fs)).flatten) =
        dedupLoop [] (((dirs₁ ++ dirs₂).map (scanDirectory isWin fs)).flatten)) := by
  refine ⟨?_, ?_, ?_⟩
  · intro h
    simp [scanDirectory, h]
  · intro h
    cases ha : fs.accessOf d
    · simp [scanDirectory, ha]
    · simp [scanDirectory, ha, h]
  · intro d1 d2 h
    simp [h]

theorem scanDirectory_failure_isolated_witness :
    scanDirectory false emptyFS "/nope" = [] ∧
    dedupLoop [] (((["/bin"] ++ "/nope" :: []).map (scanDirectory false emptyFS)).flatten) =
      dedupLoop [] (((["/bin"] ++ []).map (scanDirectory false emptyFS)).flatten) :=
  ⟨(scanDirectory_failure_isolated false emptyFS "/nope").1 rfl,
   (scanDirectory_failure_isolated false emptyFS "/nope").2.2 ["/bin"] []
     ((scanDirectory_failure_isolated false emptyFS "/nope").1 rfl)⟩

theorem lookup_mem {β : Type} {l : List (String × β)} {k : String} {v : β}
    (h : l.lookup k = some v) : (k, v) ∈ l := by
  induction l with
  | nil => simp at h
  | cons a t ih =>
    obtain ⟨k', v'⟩ := a
    simp only [List.lookup] at h
    split at h
    · obtain rfl := Option.some.inj h
      rename_i heq
      have hk : k = k' := eq_of_beq heq
      subst hk
      exact List.mem_cons_self _ _
    · exact List.mem_cons_of_mem _ (ih h)

theorem dedupLoop_sublist (seen : List String) (l : List ExecutableInfo) :
    (dedupLoop seen l).Sublist l := by
  induction l generalizing seen with
  | nil => simp [dedupLoop]
  | cons e es ih =>
    unfold dedupLoop
    split
    · exact List.Sublist.cons e (ih seen)
    · exact List.Sublist.cons₂ e (ih _)

theorem dedupLoop_key_not_seen {seen : List String} {l : List ExecutableInfo} :
    ∀ e ∈ dedupLoop seen l, execKey e ∉ seen := by
  induction l generalizing seen with
  | nil => intro e he; simp [dedupLoop] at he
  | cons a es ih =>
    intro e he
    unfold dedupLoop at he
    split at he
    · exact ih e he
    · rcases List.mem_cons.mp he with rfl | hmem
      · assumption
      · exact fun hc => ih e hmem (List.mem_cons_of_mem _ hc)

theorem dedupLoop_keys_nodup (seen : List String) (l : List ExecutableInfo) :
    ((dedupLoop seen l).map execKey).Nodup := by
  induction l generalizing seen with
  | nil => simp [dedupLoop]
  | cons a es ih =>
    unfold dedupLoop
    split
    · exact ih seen
    · simp only [List.map_cons]
      rw [List.nodup_cons]
      constructor
      · intro hmem
        obtain ⟨e, he, hk⟩ := List.mem_map.mp hmem
        exact (dedupLoop_key_not_seen e he) (hk ▸ List.mem_cons_self _ _)
      · exact ih _

theorem dedupLoop_complete (seen : List String) (l : List ExecutableInfo) :
    ∀ e ∈ l, execKey e ∉ seen →
      ∃ e2 ∈ dedupLoop seen l, execKey e2 = execKey e := by
  induction l generalizing seen with
  | nil => intro e he; exact absurd he (List.not_mem_nil e)
  | cons a es ih =>
    intro e he hns
    unfold dedupLoop
    rcases List.mem_cons.mp he with rfl | hmem
    · split
      · exact absurd (by assumption) hns
      · exact ⟨e, List.mem_cons_self _ _, rfl⟩
    · split
      · exact ih seen e hmem hns
      · by_cases hk : execKey e = execKey a
        · exact ⟨a, List.mem_cons_self _ _, hk.symm⟩
        · have hns2 : execKey e ∉ execKey a :: seen := by
            intro hc
            rcases List.mem_cons.mp hc with h1 | h2
            · exact hk h1
            · exact hns h2
          obtain ⟨e2, he2, hk2⟩ := ih _ e hmem hns2
          exact ⟨e2, List.mem_cons_of_mem _ he2, hk2⟩

theorem dedupLoop_first_kept (seen : List String) (l₁ : List ExecutableInfo)
    (e : ExecutableInfo) (l₂ : List ExecutableInfo)
    (hns : execKey e ∉ seen)
    (hfirst : ∀ x ∈ l₁, execKey x ≠ execKey e) :
    e ∈ dedupLoop seen (l₁ ++ e :: l₂) := by
  induction l₁ generalizing seen with
  | nil =>
    unfold dedupLoop
    simp only [List.nil_append]
    rw [if_neg hns]
    exact List.mem_cons_self _ _
  | cons a t ih =>
    unfold dedupLoop
    simp only [List.cons_append]
    split
    · exact ih seen hns (fun x hx => hfirst x (List.mem_cons_of_mem _ hx))
    · refine List.mem_cons_of_mem _ (ih _ ?_ ?_)
      · intro hc
        rcases List.mem_cons.mp hc with h1 | h2
        · exact (hfirst a (List.mem_cons_self _ _)) h1.symm
        · exact hns h2
      · exact fun x hx => hfirst x (List.mem_cons_of_mem _ hx)

theorem execKey_data (e : ExecutableInfo) :
    (execKey e).data = e.name.data ++ ':' :: e.path.data := by
  simp [execKey, String.data_append]

theorem key_collision_aux (isWin : Bool) (e1 e2 : ExecutableInfo)
    (g1 : GoodRecord isWin e1) (g2 : GoodRecord isWin e2)
    (hk : (execKey e1).data = (execKey e2).data)
    (hlt : e1.name.data.length < e2.name.data.length) : False := by
  obtain ⟨D1, f1, hp1, hsl1, hw1, hx1⟩ := g1
  obtain ⟨D2, f2, hp2, hsl2, hw2, hx2⟩ := g2
  rw [execKey_data, execKey_data] at hk
  cases isWin with
  | true =>
    have htake := congrArg (List.take e2.name.data.length) hk
    rw [List.take_left] at htake
    rw [List.take_append_eq_append_take,
        List.take_of_length_le (Nat.le_of_lt hlt)] at htake
    have hcol : (':' : Char) ∈ e2.name.data := by
      rw [← htake]
      cases hdiff : e2.name.data.length - e1.name.data.length with
      | zero => exact absurd hdiff (by omega)
      | succ m =>
        rw [List.take_succ_cons]
        exact List.mem_append_right _ (List.mem_cons_self _ _)
    exact hw2 rfl hcol
  | false =>
    have hl1 : e1.name.data.length = f1.length := hx1 rfl
    have hl2 : e2.name.data.length = f2.length := hx2 rfl
    have hsf1 : ('/' :: f1) <:+ (e1.name.data ++ ':' :: e1.path.data) := by
      have ha : ('/' :: f1) <:+ e1.path.data := ⟨D1, hp1.symm⟩
      exact ha.trans ⟨e1.name.data ++ [':'], by simp⟩
    have hsf2 : ('/' :: f2) <:+ (e1.name.data ++ ':' :: e1.path.data) := by
      rw [hk]
      have hb : ('/' :: f2) <:+ e2.path.data := ⟨D2, hp2.symm⟩
      exact hb.trans ⟨e2.name.data ++ [':'], by simp⟩
    have hlen : ('/' :: f1).length ≤ ('/' :: f2).length := by
      simp only [List.length_cons]
      omega
    have hsub := List.suffix_of_suffix_length_le hsf1 hsf2 hlen
    rcases List.suffix_cons_iff.mp hsub with heq | htail
    · have hfl : f1.length = f2.length := by
        have := congrArg List.length heq
        simpa using this
      omega
    · exact hsl2 (htail.subset (List.mem_cons_self _ _))

theorem execKey_inj (isWin : Bool) (e1 e2 : ExecutableInfo)
    (g1 : GoodRecord isWin e1) (g2 : GoodRecord isWin e2)
    (hk : execKey e1 = execKey e2) : e1.name = e2.name ∧ e1.path = e2.path := by
  have hkd : (execKey e1).data = (execKey e2).data := congrArg String.data hk
  rcases Nat.lt_trichotomy e1.name.data.length e2.name.data.length with hlt | heq | hgt
  · exact (key_collision_aux isWin e1 e2 g1 g2 hkd hlt).elim
  · have hkd2 := hkd
    rw [execKey_data, execKey_data] at hkd2
    obtain ⟨hn, hp⟩ := List.append_inj hkd2 heq
    have hp2 : e1.path.data = e2.path.data := by injection hp
    exact ⟨String.ext hn, String.ext hp2⟩
  · exact (key_collision_aux isWin e2 e1 g2 g1 hkd.symm hgt).elim

theorem colon_not_mem_lower {l : List Char} (h : (':' : Char) ∉ l) :
    (':' : Char) ∉ l.map lowerChar := by
  intro hmem
  obtain ⟨c, hc, hlc⟩ := List.mem_map.mp hmem
  exact h (lowerChar_eq_colon hlc ▸ hc)

theorem map_unify_id {l : List Char} (h : ('\\' : Char) ∉ l) :
    l.map unifySepChar = l := by
  induction l with
  | nil => rfl
  | cons c t ih =>
    have hc : (c == '\\') = false :=
      beq_eq_false_iff_ne.mpr (fun hcc => h (hcc ▸ List.mem_cons_self _ _))
    simp [unifySepChar, hc, ih (fun hm => h (List.mem_cons_of_mem _ hm))]

theorem basenameStripExt_data_subset (file ext : String) :
    (basenameStripExt file ext).data ⊆ file.data := by
  unfold basenameStripExt
  split
  · exact List.take_subset _ _
  · exact fun x hx => hx

theorem pathJoinData_shape (isWin : Bool) (d f : List Char) (hd : d ≠ []) :
    ∃ D c, pathJoinData isWin d f = D ++ c :: f ∧ isSep isWin c = true := by
  unfold pathJoinData
  cases hr : d.reverse with
  | nil => exact absurd (List.reverse_eq_nil_iff.mp hr) hd
  | cons c rest =>
    simp only [hr]
    split
    · rename_i hsep
      exact ⟨rest.reverse, c, rfl, hsep⟩
    · exact ⟨d, sepChar isWin, rfl, by cases isWin <;> decide⟩

theorem normalizePathModel_eq_empty {w : Bool} {s : String} :
    normalizePathModel w s = "" ↔ s = "" := by
  cases w with
  | false => simp [normalizePathModel]
  | true =>
    unfold normalizePathModel
    constructor
    · intro h
      have hd : s.data.map unifySepChar = [] := congrArg String.data h
      have hnil : s.data = [] := by
        cases hmap : s.data with
        | nil => rfl
        | cons a t =>
          rw [hmap] at hd
          exact (List.cons_ne_nil _ _ hd).elim
      cases s with
      | mk dd =>
        cases hnil
        rfl
    · intro h
      subst h
      rfl

theorem parsePath_ne_empty (isWin : Bool) (a b : Option String) :
    ∀ d ∈ parsePath isWin a b, d ≠ "" := by
  intro d hd
  unfold parsePath at hd
  obtain ⟨x, hx, rfl⟩ := List.mem_map.mp hd
  have hxf := (List.mem_filter.mp hx).2
  have hxne : x ≠ "" := by
    intro hxe
    rw [hxe] at hxf
    simp at hxf
  exact fun hne => hxne (normalizePathModel_eq_empty.mp hne)

theorem scanDirectory_good (isWin : Bool) (fs : FileSystem) (d : String)
    (hwf : WFfs isWin fs) (hd : d ≠ "") :
    ∀ e ∈ scanDirectory isWin fs d, GoodRecord isWin e := by
  intro e he
  unfold scanDirectory at he
  cases ha : fs.accessOf d with
  | false => rw [ha] at he; simp at he
  | true =>
    rw [ha] at he
    simp only [Bool.not_true] at he
    rw [if_neg (by decide)] at he
    cases hr : fs.readdirOf d with
    | none => rw [hr] at he; simp at he
    | some files =>
      rw [hr] at he
      obtain ⟨file, hfile, hsome⟩ := List.mem_filterMap.mp he
      split at hsome
      · obtain rfl := Option.some.inj hsome
        have hr2 : fs.dirs.lookup d = some files := hr
        have hdirs : (d, files) ∈ fs.dirs := lookup_mem hr2
        obtain ⟨hnoslash, hwin⟩ := hwf (d, files) hdirs file hfile
        have hddata : d.data ≠ [] := by
          intro hnil
          apply hd
          cases d with
          | mk dd =>
            cases hnil
            rfl
        obtain ⟨D, c, hshape, hsep⟩ := pathJoinData_shape isWin d.data file.data hddata
        cases isWin with
        | false =>
          have hc : c = '/' := by
            simp [isSep] at hsep
            exact hsep
          refine ⟨D, file.data, ?_, hnoslash, by simp, ?_⟩
          · show (normalizePathModel false (pathJoin false d file)).data = D ++ '/' :: file.data
            show pathJoinData false d.data file.data = D ++ '/' :: file.data
            rw [hshape, hc]
          · intro _
            show (lowerStr file).data.length = file.data.length
            simp [lowerStr]
        | true =>
          have hbs : ('\\' : Char) ∉ file.data := (hwin rfl).1
          have hcolon : (':' : Char) ∉ file.data := (hwin rfl).2
          have hcu : unifySepChar c = '/' := by
            simp [isSep] at hsep
            rcases hsep with h1 | h2
            · rw [h1]; rfl
            · rw [h2]; rfl
          refine ⟨D.map unifySepChar, file.data, ?_, hnoslash, ?_, by simp⟩
          · show (normalizePathModel true (pathJoin true d file)).data =
              D.map unifySepChar ++ '/' :: file.data
            show (pathJoinData true d.data file.data).map unifySepChar =
              D.map unifySepChar ++ '/' :: file.data
            rw [hshape, List.map_append, List.map_cons, hcu, map_unify_id hbs]
          · intro _
            show (':' : Char) ∉ (lowerStr (if winExecExts.contains (lowerStr (extname true file))
              then basenameStripExt file (lowerStr (extname true file)) else file)).data
            apply colon_not_mem_lower
            split
            · exact fun hm => hcolon (basenameStripExt_data_subset _ _ hm)
            · exact hcolon
      · exact absurd hsome (by simp)

/-- Claim C3: for every search path and well-formed filesystem state, the
aggregated scan holds each (name, path) pair at most once; its records are
a sublist of the per-directory scans concatenated in search-path and
listing order; every discovered pair is still represented after the dedup;
and an occurrence preceded by no record of the same pair — the earliest
occurrence — is kept.  Records sharing a name but not a path are distinct
pairs and are hence both represented. -/
theorem scanAll_dedup (isWin : Bool) (fs : FileSystem) (envPATH envPath : Option String)
    (hwf : WFfs isWin fs) :
    List.Pairwise (fun a b => ¬(a.name = b.name ∧ a.path = b.path))
      (scanAllPathDirectories isWin fs envPATH envPath) ∧
    (scanAllPathDirectories isWin fs envPATH envPath).Sublist
      (allScans isWin fs envPATH envPath) ∧
    (∀ e ∈ allScans isWin fs envPATH envPath,
      ∃ k ∈ scanAllPathDirectories isWin fs envPATH envPath,
        k.name = e.name ∧ k.path = e.path) ∧
    (∀ l₁ e l₂, allScans isWin fs envPATH envPath = l₁ ++ e :: l₂ →
      (∀ x ∈ l₁, ¬(x.name = e.name ∧ x.path = e.path)) →
      e ∈ scanAllPathDirectories isWin fs envPATH envPath) := by
  have hgood : ∀ e ∈ allScans isWin fs envPATH envPath, GoodRecord isWin e := by
    intro e he
    unfold allScans at he
    obtain ⟨ls, hls, hel⟩ := List.mem_flatten.mp he
    obtain ⟨dname, hdname, rfl⟩ := List.mem_map.mp hls
    exact scanDirectory_good isWin fs dname hwf
      (parsePath_ne_empty isWin envPATH envPath dname hdname) e hel
  refine ⟨?_, dedupLoop_sublist [] _, ?_, ?_⟩
  · have hnodup := dedupLoop_keys_nodup [] (allScans isWin fs envPATH envPath)
    have hpw := List.pairwise_map.mp hnodup
    exact hpw.imp (fun hne hand => hne (by
      unfold execKey
      rw [hand.1, hand.2]))
  · intro e he
    obtain ⟨k, hk, hkey⟩ := dedupLoop_complete [] _ e he (by simp)
    have hgk : GoodRecord isWin k :=
      hgood k ((dedupLoop_sublist [] _).subset hk)
    obtain ⟨hn, hp⟩ := execKey_inj isWin k e hgk (hgood e he) hkey
    exact ⟨k, hk, hn, hp⟩
  · intro l1 e l2 heq hne
    show e ∈ dedupLoop [] (allScans isWin fs envPATH envPath)
    rw [heq]
    apply dedupLoop_first_kept [] l1 e l2 (by simp)
    intro x hx hkx
    have hex : x ∈ allScans isWin fs envPATH envPath := by
      rw [heq]
      exact List.mem_append_left _ hx
    have hee : e ∈ allScans isWin fs envPATH envPath := by
      rw [heq]
      exact List.mem_append_right _ (List.mem_cons_self _ _)
    obtain ⟨hn, hp⟩ := execKey_inj isWin x e (hgood x hex) (hgood e hee) hkx
    exact hne x hx ⟨hn, hp⟩

theorem scanAll_dedup_witness :
    List.Pairwise (fun a b => ¬(a.name = b.name ∧ a.path = b.path))
      (scanAllPathDirectories false sampleFS (some "/bin:/bin") none) ∧
    (scanAllPathDirectories false sampleFS (some "/bin:/bin") none).Sublist
      (allScans false sampleFS (some "/bin:/bin") none) ∧
    (∀ e ∈ allScans false sampleFS (some "/bin:/bin") none,
      ∃ k ∈ scanAllPathDirectories false sampleFS (some "/bin:/bin") none,
        k.name = e.name ∧ k.path = e.path) ∧
    (∀ l₁ e l₂, allScans false sampleFS (some "/bin:/bin") none = l₁ ++ e :: l₂ →
      (∀ x ∈ l₁, ¬(x.name = e.name ∧ x.path = e.path)) →
      e ∈ scanAllPathDirectories false sampleFS (some "/bin:/bin") none) :=
  scanAll_dedup false sampleFS (some "/bin:/bin") none (by decide)

end DevJanitor
